import Mathlib

/-!
Verification of the NaRMBench radar-chart front-end.

The development shallowly embeds the pure computational core of the
repository:

* `src/composables/useChart.js` — label wrapping (`greedyWrap`,
  `performIdealSplit`, `wrapLabel`), icon placement clamping, entity
  ranking (`baseDatasets`), selection resolution, and the axis
  permutation of `chartData`;
* `src/utils/storage.js` — `getStoredWithExpiry` / `setStoredWithExpiry`;
* `src/utils/chartConfig.js` — `hexToHsl`, `modelColorMap`,
  `generateColors`.

JavaScript strings are modelled as `List Char`, JavaScript numbers as
`ℚ` (the quantities appearing in the claims are exact in IEEE doubles at
all realistic sizes, so exact arithmetic is a faithful model), and the
`Infinity` width bound as `⊤ : ℕ∞`.
-/

set_option allowUnsafeReducibility true
attribute [local semireducible] Rat.add Rat.sub Rat.mul Rat.div Rat.inv

/-- JavaScript strings, modelled as lists of characters. -/
abbrev JStr := List Char

/-- Model of `label.split(' ')` (split on every single space character;
the empty string splits to `[""]`, as in JavaScript). -/
def splitSp : JStr → List JStr
  | [] => [[]]
  | c :: rest =>
    if c = ' ' then [] :: splitSp rest
    else
      match splitSp rest with
      | [] => [[c]]
      | w :: ws => (c :: w) :: ws

/-- Model of `words.join(' ')`. -/
def joinSp : List JStr → JStr
  | [] => []
  | [w] => w
  | w :: ws => w ++ ' ' :: joinSp ws

/-- Loop of `greedyWrap` (useChart.js lines 50-62): `cur` is
`currentLine`, and the test mirrors `(currentLine + ' ' + word).length >
maxWidth`. -/
def greedyGo (cur : JStr) (w : ℕ) : List JStr → List JStr
  | [] => [cur]
  | word :: rest =>
    if w < cur.length + 1 + word.length then cur :: greedyGo word w rest
    else greedyGo (cur ++ ' ' :: word) w rest

/-- `greedyWrap(words, maxWidth)` from useChart.js lines 48-64. -/
def greedyWrap (words : List JStr) (w : ℕ) : List JStr :=
  match words with
  | [] => [[]]
  | h :: t => greedyGo h w t

/-- The split-point search loop of `performIdealSplit` (useChart.js
lines 85-96).  `lens` is the list of word lengths still to process,
`i` the loop counter, `cur` the running `currentLength`, `best` the
current `bestSplitIndex` and `small` the current `smallestDiff`
(initially `Infinity`, modelled by `⊤`). -/
def bestSplitGo (ideal : ℚ) : List ℕ → ℕ → ℕ → ℕ → WithTop ℚ → ℕ
  | [], _, _, best, _ => best
  | L :: ls, i, cur, best, small =>
    let cur' := cur + L + 1
    let diff : ℚ := |(cur' : ℚ) - ideal|
    if (diff : WithTop ℚ) < small then bestSplitGo ideal ls (i + 1) cur' (i + 1) (some diff)
    else bestSplitGo ideal ls (i + 1) cur' best small

/-- `performIdealSplit(label, maxWidth, targetLines)` from useChart.js
lines 73-112.  The width bound is `ℕ∞` because the caller passes
`Infinity` when the greedy pass overflows the line budget.  The source's
single guard `targetLines <= 1 || label.length <= maxWidth` (after the
`!label` check) is rendered by the `0`/`1` cases plus the width test in
the `t + 2` case; the recursion condition `rest.length > maxWidth &&
targetLines > 1` drops its second conjunct there because `t + 2 > 1`
always holds. -/
def performIdealSplit (w : ℕ∞) : ℕ → JStr → List JStr
  | 0, label => if label = [] then [[]] else [label]
  | 1, label => if label = [] then [[]] else [label]
  | t + 2, label =>
    if label = [] then [[]]
    else if (label.length : ℕ∞) ≤ w then [label]
    else
      let words := splitSp label
      if words.length ≤ 1 then [label]
      else
        let ideal : ℚ := (label.length : ℚ) / ((t : ℚ) + 2)
        let k0 := bestSplitGo ideal ((words.map List.length).dropLast) 0 0 0 ⊤
        let k := if k0 = 0 then 1 else k0
        let firstLine := joinSp (words.take k)
        let rest := joinSp (words.drop k)
        if w < (rest.length : ℕ∞) then firstLine :: performIdealSplit w (t + 1) rest
        else [firstLine, rest]

/-- `wrapLabel(label, maxWidth, maxLines)` from useChart.js lines
121-146 (the source defaults `maxLines` to 3; every call site here
passes it explicitly). -/
def wrapLabel (label : JStr) (w : ℕ) (maxLines : ℕ) : List JStr :=
  if label = [] then [[]]
  else if label.length ≤ w then [label]
  else
    let words := splitSp label
    if words.length ≤ 1 then [label]
    else
      let g := greedyWrap words w
      if g.length ≤ maxLines then performIdealSplit (w : ℕ∞) g.length label
      else performIdealSplit ⊤ maxLines label

example : wrapLabel ("Long Modification Name Example").toList 15 3 =
    [("Long").toList, ("Modification").toList, ("Name Example").toList] := by decide

example : wrapLabel ("abc d efgh").toList 6 3 = [("abc").toList, ("d efgh").toList] := by decide

/-! ### Basic lemmas about the string model -/

theorem joinSp_cons (w : JStr) (ws : List JStr) (h : ws ≠ []) :
    joinSp (w :: ws) = w ++ ' ' :: joinSp ws := by
  cases ws with
  | nil => exact absurd rfl h
  | cons a l => rfl

theorem splitSp_ne_nil (s : JStr) : splitSp s ≠ [] := by
  cases s with
  | nil => simp [splitSp]
  | cons c rest =>
    by_cases hc : c = ' '
    · simp [splitSp, hc]
    · simp only [splitSp, if_neg hc]
      cases h : splitSp rest <;> simp

/-- `join(' ')` is a left inverse of `split(' ')`: the words of a label
reassemble to the label itself. -/
theorem joinSp_splitSp (s : JStr) : joinSp (splitSp s) = s := by
  induction s with
  | nil => rfl
  | cons c rest ih =>
    by_cases hc : c = ' '
    · subst hc
      have hsp : splitSp (' ' :: rest) = [] :: splitSp rest := by simp [splitSp]
      rw [hsp, joinSp_cons _ _ (splitSp_ne_nil rest), ih]
      rfl
    · simp only [splitSp, if_neg hc]
      cases h : splitSp rest with
      | nil => exact absurd h (splitSp_ne_nil rest)
      | cons w ws =>
        rw [h] at ih
        cases ws with
        | nil =>
          simp only [joinSp] at ih
          simp [joinSp, ih]
        | cons b bs =>
          rw [joinSp_cons _ _ (by simp)] at ih
          rw [joinSp_cons _ _ (by simp)]
          simp only [List.cons_append, List.append_assoc] at ih ⊢
          rw [← ih]

theorem le_length_joinSp_cons (w : JStr) (ws : List JStr) :
    w.length ≤ (joinSp (w :: ws)).length := by
  cases ws with
  | nil => simp [joinSp]
  | cons a l =>
    rw [joinSp_cons _ _ (by simp)]
    simp

theorem joinSp_cons_append (cur word : JStr) (rest : List JStr) :
    joinSp ((cur ++ ' ' :: word) :: rest) = joinSp (cur :: word :: rest) := by
  cases rest with
  | nil => simp [joinSp]
  | cons b bs =>
    rw [joinSp_cons (cur ++ ' ' :: word) (b :: bs) (by simp),
      joinSp_cons cur (word :: b :: bs) (by simp), joinSp_cons word (b :: bs) (by simp)]
    simp

/-! ### Lemmas about the greedy pass -/

theorem greedyGo_length_pos (w : ℕ) : ∀ (rest : List JStr) (cur : JStr),
    1 ≤ (greedyGo cur w rest).length
  | [], cur => by simp [greedyGo]
  | word :: rest, cur => by
    simp only [greedyGo]
    split
    · simp
    · exact greedyGo_length_pos w rest (cur ++ ' ' :: word)

theorem greedyWrap_length_pos (words : List JStr) (w : ℕ) :
    1 ≤ (greedyWrap words w).length := by
  cases words with
  | nil => simp [greedyWrap]
  | cons h t => exact greedyGo_length_pos w t h

/-- When the greedy pass needs at least two lines, the label as a whole
is longer than the width budget. -/
theorem greedyGo_overflow (w : ℕ) : ∀ (rest : List JStr) (cur : JStr),
    2 ≤ (greedyGo cur w rest).length → w < (joinSp (cur :: rest)).length
  | [], cur => by simp [greedyGo]
  | word :: rest, cur => by
    simp only [greedyGo]
    split
    · intro _
      rename_i hlt
      have h2 := le_length_joinSp_cons word rest
      rw [joinSp_cons _ _ (by simp)]
      simp only [List.length_append, List.length_cons]
      omega
    · intro h
      have hrec := greedyGo_overflow w rest (cur ++ ' ' :: word) h
      rw [joinSp_cons_append] at hrec
      exact hrec

/-! ### Line-count bound for the ideal split -/

theorem performIdealSplit_length (w : ℕ∞) : ∀ (t : ℕ) (label : JStr),
    (performIdealSplit w t label).length ≤ max 1 t
  | 0, label => by
    simp only [performIdealSplit]
    split <;> simp
  | 1, label => by
    simp only [performIdealSplit]
    split <;> simp
  | t + 2, label => by
    simp only [performIdealSplit]
    split
    · simp
    · split
      · simp
      · split
        · simp
        · split
          · split
            · simp only [List.length_cons]
              exact le_trans (Nat.add_le_add_right (performIdealSplit_length w (t + 1) _) 1)
                (by omega)
            · simp only [List.length_cons, List.length_nil]
              omega
          · split
            · simp only [List.length_cons]
              exact le_trans (Nat.add_le_add_right (performIdealSplit_length w (t + 1) _) 1)
                (by omega)
            · simp only [List.length_cons, List.length_nil]
              omega

/-! ### Claims C1 and C3 -/

/-- Claim C1 (code bug): when the greedy pass needs more lines than
`maxLines`, the source intends `performIdealSplit(label, Infinity,
maxLines)` to force exactly `maxLines` balanced lines, but that call
immediately returns the label unsplit, because its early return
`label.length <= maxWidth` always fires for an infinite width.  At the
failing input `"aa bb cc dd"`, `maxWidth = 2`, `maxLines = 3`, the
greedy pass needs 4 lines, yet `wrapLabel` returns a single unsplit
line instead of 3 balanced ones. -/
theorem wrapLabel_overflow_returns_unsplit :
    (greedyWrap (splitSp ("aa bb cc dd").toList) 2).length = 4 ∧
    wrapLabel ("aa bb cc dd").toList 2 3 = [("aa bb cc dd").toList] ∧
    (wrapLabel ("aa bb cc dd").toList 2 3).length = 1 := by decide

/-- Claim C3, counterexample: the output-length bound fails for
`maxLines = 0` — every return path of `wrapLabel` produces at least one
line, so at label `"x"`, `maxWidth = 0`, `maxLines = 0` the output has
1 > 0 lines. -/
theorem wrapLabel_zero_maxLines_counterexample :
    ¬ ((wrapLabel ("x").toList 0 0).length ≤ 0) := by decide

/-- Claim C3 (amended: `maxLines ≥ 1`): for every label, width and
`maxLines ≥ 1`, `wrapLabel` returns at most `maxLines` lines; and every
label shorter than `maxWidth` is returned as the single-element
sequence containing exactly the label. -/
theorem wrapLabel_length_bound (label : JStr) (w m : ℕ) (hm : 1 ≤ m) :
    (wrapLabel label w m).length ≤ m ∧
    (label.length < w → wrapLabel label w m = [label]) := by
  constructor
  · simp only [wrapLabel]
    split
    · simpa
    · split
      · simpa
      · split
        · simpa
        · split
          · rename_i hg
            have h1 := greedyWrap_length_pos (splitSp label) w
            have h2 := performIdealSplit_length (w : ℕ∞)
              (greedyWrap (splitSp label) w).length label
            omega
          · have h2 := performIdealSplit_length (⊤ : ℕ∞) m label
            omega
  · intro hlt
    simp only [wrapLabel]
    split
    · rename_i he
      rw [he]
    · rw [if_pos (by omega)]

/-- Claim C3, witness: the amended bound and the short-label case,
instantiated at label `"ab"`, `maxWidth = 5`, `maxLines = 3`. -/
theorem wrapLabel_length_bound_witness :
    (wrapLabel ("ab").toList 5 3).length ≤ 3 ∧
    wrapLabel ("ab").toList 5 3 = [("ab").toList] :=
  ⟨(wrapLabel_length_bound ("ab").toList 5 3 (by decide)).1,
   (wrapLabel_length_bound ("ab").toList 5 3 (by decide)).2 (by decide)⟩

/-! ### The split-point search as a first argmin -/

/-- The stream of `diff` values examined by the split-point loop of
`performIdealSplit`, starting from accumulated length `cur`. -/
def cumDiffs (ideal : ℚ) : List ℕ → ℕ → List ℚ
  | [], _ => []
  | L :: ls, cur => |((cur + L + 1 : ℕ) : ℚ) - ideal| :: cumDiffs ideal ls (cur + L + 1)

theorem cumDiffs_length (ideal : ℚ) : ∀ (lens : List ℕ) (cur : ℕ),
    (cumDiffs ideal lens cur).length = lens.length
  | [], _ => rfl
  | L :: ls, cur => by
    simp [cumDiffs, cumDiffs_length ideal ls]

theorem cumDiffs_getD (ideal : ℚ) : ∀ (lens : List ℕ) (cur t : ℕ), t < lens.length →
    (cumDiffs ideal lens cur).getD t 0 =
      |((cur + (lens.take (t + 1)).sum + (t + 1) : ℕ) : ℚ) - ideal|
  | [], _, t, ht => absurd ht (by simp)
  | L :: ls, cur, 0, _ => by
    simp [cumDiffs]
  | L :: ls, cur, t + 1, ht => by
    have ih := cumDiffs_getD ideal ls (cur + L + 1) t (by simpa using ht)
    simp only [cumDiffs, List.getD_cons_succ]
    rw [ih]
    have harith : cur + L + 1 + (ls.take (t + 1)).sum + (t + 1) =
        cur + ((L :: ls).take (t + 1 + 1)).sum + (t + 1 + 1) := by
      simp only [List.take_succ_cons, List.sum_cons]
      omega
    rw [harith]

/-- Loop invariant of the split-point search: relative to any cost
assignment `D` that agrees with the stream of upcoming `diff` values
and assigns the incoming `best` its incoming `smallestDiff`, the loop
returns an index of minimal cost. -/
theorem bestSplitGo_argmin (ideal : ℚ) (D : ℕ → WithTop ℚ) :
    ∀ (lens : List ℕ) (i cur best : ℕ) (small : WithTop ℚ),
      D best = small →
      (∀ t, t < lens.length →
        D (i + t + 1) = (((cumDiffs ideal lens cur).getD t 0 : ℚ) : WithTop ℚ)) →
      D (bestSplitGo ideal lens i cur best small) ≤ small ∧
      (∀ t, t < lens.length →
        D (bestSplitGo ideal lens i cur best small) ≤ D (i + t + 1))
  | [], i, cur, best, small => by
    intro hb _
    simp only [bestSplitGo]
    exact ⟨le_of_eq hb, fun t ht => absurd ht (by simp)⟩
  | L :: ls, i, cur, best, small => by
    intro hb hD
    have hd0 : D (i + 0 + 1) = ((|((cur + L + 1 : ℕ) : ℚ) - ideal| : ℚ) : WithTop ℚ) := by
      have h := hD 0 (by simp)
      simpa [cumDiffs] using h
    have hDtail : ∀ t, t < ls.length →
        D ((i + 1) + t + 1) =
          (((cumDiffs ideal ls (cur + L + 1)).getD t 0 : ℚ) : WithTop ℚ) := by
      intro t ht
      have h1 := hD (t + 1) (by simpa using Nat.succ_lt_succ ht)
      have h2 : i + (t + 1) + 1 = (i + 1) + t + 1 := by omega
      rw [h2] at h1
      simpa [cumDiffs] using h1
    simp only [bestSplitGo]
    split
    · rename_i hlt
      have ih := bestSplitGo_argmin ideal D ls (i + 1) (cur + L + 1) (i + 1)
        (((|((cur + L + 1 : ℕ) : ℚ) - ideal| : ℚ) : WithTop ℚ))
        (by simpa using hd0) hDtail
      refine ⟨le_trans ih.1 (le_of_lt hlt), ?_⟩
      intro t ht
      cases t with
      | zero =>
        rw [hd0]
        exact ih.1
      | succ s =>
        have hs : s < ls.length := by simpa using ht
        have h2 : i + (s + 1) + 1 = (i + 1) + s + 1 := by omega
        rw [h2]
        exact ih.2 s hs
    · rename_i hnlt
      have ih := bestSplitGo_argmin ideal D ls (i + 1) (cur + L + 1) best small hb hDtail
      refine ⟨ih.1, ?_⟩
      intro t ht
      cases t with
      | zero =>
        rw [hd0]
        exact le_trans ih.1 (not_lt.mp hnlt)
      | succ s =>
        have hs : s < ls.length := by simpa using ht
        have h2 : i + (s + 1) + 1 = (i + 1) + s + 1 := by omega
        rw [h2]
        exact ih.2 s hs

/-- The split index returned by the loop lies in `[1, lens.length]` and
achieves a minimal `diff` value among all candidate boundaries. -/
theorem bestSplitGo_spec (ideal : ℚ) (lens : List ℕ) (hne : lens ≠ []) :
    1 ≤ bestSplitGo ideal lens 0 0 0 ⊤ ∧
    bestSplitGo ideal lens 0 0 0 ⊤ ≤ lens.length ∧
    ∀ k, 1 ≤ k → k ≤ lens.length →
      (cumDiffs ideal lens 0).getD (bestSplitGo ideal lens 0 0 0 ⊤ - 1) 0 ≤
      (cumDiffs ideal lens 0).getD (k - 1) 0 := by
  have hlen0 : 0 < lens.length := by
    cases lens with
    | nil => exact absurd rfl hne
    | cons a l => simp
  have harg := bestSplitGo_argmin ideal
    (fun k => if 1 ≤ k ∧ k ≤ lens.length
      then (((cumDiffs ideal lens 0).getD (k - 1) 0 : ℚ) : WithTop ℚ) else ⊤)
    lens 0 0 0 ⊤ (by simp)
    (by
      intro t ht
      simp only [Nat.zero_add]
      rw [if_pos ⟨by omega, by omega⟩]
      simp)
  obtain ⟨h1, h2⟩ := harg
  simp only [Nat.zero_add] at h2
  by_cases hc : 1 ≤ bestSplitGo ideal lens 0 0 0 ⊤ ∧
      bestSplitGo ideal lens 0 0 0 ⊤ ≤ lens.length
  · refine ⟨hc.1, hc.2, ?_⟩
    intro k hk1 hk2
    have hk := h2 (k - 1) (by omega)
    rw [if_pos hc] at hk
    have hkeq : k - 1 + 1 = k := by omega
    rw [hkeq, if_pos ⟨hk1, hk2⟩] at hk
    exact_mod_cast hk
  · exfalso
    have hr0 := h2 0 hlen0
    rw [if_neg hc] at hr0
    have h01 : (0 : ℕ) + 1 = 1 := by omega
    rw [h01, if_pos ⟨le_refl 1, hlen0⟩] at hr0
    simp at hr0

/-! ### Word-boundary splits and their line lengths -/

theorem joinSp_take_length : ∀ (ws : List JStr) (k : ℕ), 1 ≤ k → k ≤ ws.length →
    (joinSp (ws.take k)).length + 1 = ((ws.map List.length).take k).sum + k
  | [], k, h1, h2 => by
    simp at h2
    omega
  | a :: ws', 0, h1, _ => absurd h1 (by omega)
  | a :: ws', 1, _, _ => by
    simp [joinSp]
  | a :: ws', k + 2, h1, h2 => by
    have ih := joinSp_take_length ws' (k + 1) (by omega) (by simpa using h2)
    have hne : ws'.take (k + 1) ≠ [] := by
      have hlen : k + 1 ≤ ws'.length := by simpa using h2
      intro hcon
      have hlc := congrArg List.length hcon
      rw [List.length_take] at hlc
      simp only [List.length_nil] at hlc
      omega
    simp only [List.take_succ_cons, List.map_cons]
    rw [joinSp_cons _ _ hne]
    simp only [List.length_append, List.length_cons, List.sum_cons]
    omega

theorem joinSp_take_drop : ∀ (ws : List JStr) (k : ℕ), 1 ≤ k → k < ws.length →
    joinSp ws = joinSp (ws.take k) ++ ' ' :: joinSp (ws.drop k)
  | [], k, _, h => absurd h (by simp)
  | a :: ws', 0, h1, _ => absurd h1 (by omega)
  | a :: ws', 1, _, h => by
    have hne : ws' ≠ [] := by
      intro hcon
      rw [hcon] at h
      simp at h
    simp only [List.take_succ_cons, List.take_zero, List.drop_succ_cons, List.drop_zero]
    rw [joinSp_cons a ws' hne]
    rfl
  | a :: ws', k + 2, _, h => by
    have hlen : k + 1 < ws'.length := by
      have hh := h
      simp only [List.length_cons] at hh
      omega
    have ih := joinSp_take_drop ws' (k + 1) (by omega) hlen
    have hne : ws' ≠ [] := by
      intro hcon
      rw [hcon] at hlen
      simp at hlen
    have hne2 : ws'.take (k + 1) ≠ [] := by
      intro hcon
      have hlc := congrArg List.length hcon
      rw [List.length_take] at hlc
      simp only [List.length_nil] at hlc
      omega
    simp only [List.take_succ_cons, List.drop_succ_cons]
    rw [joinSp_cons a ws' hne, joinSp_cons a (ws'.take (k + 1)) hne2, ih]
    simp

/-- Claim C2 (amended): for a label that needs exactly 2 lines under the
greedy pass, `wrapLabel` returns a two-line word-boundary split of the
label, and the chosen boundary minimizes `|len(line1) + 1 - len(line2)|`
— the deviation of the first line *including its separating space* from
half of the total label length — among all word-boundary splits (not
`|len(line1) - len(line2)|` as originally claimed). -/
theorem wrapLabel_two_line_split (label : JStr) (w : ℕ)
    (h2 : (greedyWrap (splitSp label) w).length = 2) :
    ∃ k, 1 ≤ k ∧ k < (splitSp label).length ∧
      wrapLabel label w 3 =
        [joinSp ((splitSp label).take k), joinSp ((splitSp label).drop k)] ∧
      joinSp ((splitSp label).take k) ++ ' ' :: joinSp ((splitSp label).drop k) = label ∧
      (∀ j, 1 ≤ j → j < (splitSp label).length →
        (((joinSp ((splitSp label).take k)).length + 1 : ℤ) -
          ((joinSp ((splitSp label).drop k)).length : ℤ)).natAbs ≤
        (((joinSp ((splitSp label).take j)).length + 1 : ℤ) -
          ((joinSp ((splitSp label).drop j)).length : ℤ)).natAbs) := by
  have hn2 : 2 ≤ (splitSp label).length := by
    by_contra hlt
    push_neg at hlt
    cases hx : splitSp label with
    | nil => exact splitSp_ne_nil label hx
    | cons x t =>
      cases t with
      | nil =>
        rw [hx] at h2
        simp [greedyWrap, greedyGo] at h2
      | cons y s =>
        rw [hx] at hlt
        simp only [List.length_cons] at hlt
        omega
  have hT : w < label.length := by
    obtain ⟨x, t, hx⟩ : ∃ x t, splitSp label = x :: t := by
      cases hx : splitSp label with
      | nil => exact absurd hx (splitSp_ne_nil label)
      | cons x t => exact ⟨x, t, rfl⟩
    have hgo : 2 ≤ (greedyGo x w t).length := by
      rw [hx] at h2
      simp only [greedyWrap] at h2
      omega
    have hov := greedyGo_overflow w t x hgo
    have hjoin : joinSp (x :: t) = label := by
      rw [← hx]
      exact joinSp_splitSp label
    rw [hjoin] at hov
    exact hov
  have hlab : label ≠ [] := by
    intro hcon
    rw [hcon] at hT
    simp at hT
  have hwide : ¬ ((label.length : ℕ∞) ≤ (w : ℕ∞)) := by
    simp only [Nat.cast_le]
    omega
  have hwrap : wrapLabel label w 3 = performIdealSplit (w : ℕ∞) 2 label := by
    simp only [wrapLabel]
    rw [if_neg hlab, if_neg (by omega : ¬ label.length ≤ w),
      if_neg (by omega : ¬ (splitSp label).length ≤ 1), h2,
      if_pos (by omega : (2 : ℕ) ≤ 3)]
  have hlenlens : (((splitSp label).map List.length).dropLast).length =
      (splitSp label).length - 1 := by
    simp
  have hlens_ne : ((splitSp label).map List.length).dropLast ≠ [] := by
    intro hcon
    rw [hcon] at hlenlens
    simp at hlenlens
    omega
  obtain ⟨hk1, hk2, hmin⟩ := bestSplitGo_spec
    ((label.length : ℚ) / (((0 : ℕ) : ℚ) + 2))
    (((splitSp label).map List.length).dropLast) hlens_ne
  have hcum : ∀ j, 1 ≤ j → j < (splitSp label).length →
      (cumDiffs ((label.length : ℚ) / (((0 : ℕ) : ℚ) + 2))
          (((splitSp label).map List.length).dropLast) 0).getD (j - 1) 0
        = |(((joinSp ((splitSp label).take j)).length + 1 : ℕ) : ℚ) -
            (label.length : ℚ) / (((0 : ℕ) : ℚ) + 2)| := by
    intro j hj1 hjn
    rw [cumDiffs_getD _ _ _ _ (by rw [hlenlens]; omega)]
    have hj11 : j - 1 + 1 = j := by omega
    rw [hj11]
    have hTake : (((splitSp label).map List.length).dropLast).take j
        = ((splitSp label).map List.length).take j := by
      rw [List.dropLast_eq_take, List.take_take]
      congr 1
      simp only [List.length_map]
      omega
    rw [hTake]
    have hlen := joinSp_take_length (splitSp label) j hj1 (by omega)
    have harith : 0 + (((splitSp label).map List.length).take j).sum + j
        = (joinSp ((splitSp label).take j)).length + 1 := by omega
    rw [harith]
  have hsplitlen : ∀ j, 1 ≤ j → j < (splitSp label).length →
      label.length = (joinSp ((splitSp label).take j)).length + 1 +
        (joinSp ((splitSp label).drop j)).length := by
    intro j hj1 hjn
    have h := joinSp_take_drop (splitSp label) j hj1 hjn
    rw [joinSp_splitSp label] at h
    have h3 := congrArg List.length h
    simp only [List.length_append, List.length_cons] at h3
    omega
  rw [hwrap]
  simp only [performIdealSplit]
  rw [if_neg hlab, if_neg hwide, if_neg (by omega : ¬ (splitSp label).length ≤ 1)]
  set K0 := bestSplitGo ((label.length : ℚ) / (((0 : ℕ) : ℚ) + 2))
    (((splitSp label).map List.length).dropLast) 0 0 0 ⊤ with hK0def
  have hk0ne : ¬ K0 = 0 := by omega
  rw [if_neg hk0ne]
  have hKn : K0 < (splitSp label).length := by
    have hle : K0 ≤ (((splitSp label).map List.length).dropLast).length := hk2
    rw [hlenlens] at hle
    omega
  refine ⟨K0, hk1, hKn, ?_, ?_, ?_⟩
  · split
    · by_cases hr : joinSp ((splitSp label).drop K0) = []
      · simp [performIdealSplit, hr]
      · simp [performIdealSplit, hr]
    · rfl
  · have h := joinSp_take_drop (splitSp label) K0 hk1 hKn
    rw [joinSp_splitSp label] at h
    exact h.symm
  · intro j hj1 hjn
    have hminj := hmin j hj1 (by rw [hlenlens]; omega)
    rw [hcum K0 hk1 hKn, hcum j hj1 hjn] at hminj
    have hI : (label.length : ℚ) / (((0 : ℕ) : ℚ) + 2) = (label.length : ℚ) / 2 := by
      norm_num
    rw [hI] at hminj
    have habs : ∀ m : ℕ, |((m : ℕ) : ℚ) - (label.length : ℚ) / 2| =
        |2 * ((m : ℕ) : ℚ) - (label.length : ℚ)| / 2 := by
      intro m
      rw [show 2 * ((m : ℕ) : ℚ) - (label.length : ℚ) =
        2 * (((m : ℕ) : ℚ) - (label.length : ℚ) / 2) by ring, abs_mul]
      norm_num
    rw [habs, habs] at hminj
    have h2q : |2 * (((joinSp ((splitSp label).take K0)).length + 1 : ℕ) : ℚ) -
        (label.length : ℚ)| ≤
        |2 * (((joinSp ((splitSp label).take j)).length + 1 : ℕ) : ℚ) -
        (label.length : ℚ)| := by
      linarith
    have hcast : ∀ m : ℕ, ((2 * (m : ℤ) - (label.length : ℤ) : ℤ) : ℚ) =
        2 * ((m : ℕ) : ℚ) - (label.length : ℚ) := by
      intro m
      push_cast
      ring
    rw [← hcast, ← hcast, ← Int.cast_abs, ← Int.cast_abs] at h2q
    have hzz : |2 * (((joinSp ((splitSp label).take K0)).length + 1 : ℕ) : ℤ) -
        (label.length : ℤ)| ≤
        |2 * (((joinSp ((splitSp label).take j)).length + 1 : ℕ) : ℤ) -
        (label.length : ℤ)| := by
      exact_mod_cast h2q
    rw [Int.abs_eq_natAbs, Int.abs_eq_natAbs] at hzz
    have hsk := hsplitlen K0 hk1 hKn
    have hsj := hsplitlen j hj1 hjn
    omega

/-- Claim C2, counterexample to the original statement: for the label
`"abc d efgh"` with `maxWidth = 6` the greedy pass needs exactly 2
lines, `wrapLabel` splits after the first word (lines `"abc"` /
`"d efgh"`, length difference 3), yet the word-boundary split after the
second word (`"abc d"` / `"efgh"`) has length difference 1 — so the
chosen split does not minimize `|len(line1) - len(line2)|`. -/
theorem wrapLabel_two_line_counterexample :
    (greedyWrap (splitSp ("abc d efgh").toList) 6).length = 2 ∧
    wrapLabel ("abc d efgh").toList 6 3 =
      [joinSp ((splitSp ("abc d efgh").toList).take 1),
        joinSp ((splitSp ("abc d efgh").toList).drop 1)] ∧
    (((joinSp ((splitSp ("abc d efgh").toList).take 1)).length : ℤ) -
      ((joinSp ((splitSp ("abc d efgh").toList).drop 1)).length : ℤ)).natAbs = 3 ∧
    (((joinSp ((splitSp ("abc d efgh").toList).take 2)).length : ℤ) -
      ((joinSp ((splitSp ("abc d efgh").toList).drop 2)).length : ℤ)).natAbs = 1 := by
  decide

/-- Claim C2, witness: the amended theorem applied to the concrete label
`"ab cd"` with `maxWidth = 3`, whose greedy pass needs exactly 2 lines. -/
theorem wrapLabel_two_line_split_witness :
    (greedyWrap (splitSp ("ab cd").toList) 3).length = 2 ∧
    (∃ k, 1 ≤ k ∧ k < (splitSp ("ab cd").toList).length ∧
      wrapLabel ("ab cd").toList 3 3 =
        [joinSp ((splitSp ("ab cd").toList).take k),
          joinSp ((splitSp ("ab cd").toList).drop k)] ∧
      joinSp ((splitSp ("ab cd").toList).take k) ++ ' ' ::
        joinSp ((splitSp ("ab cd").toList).drop k) = ("ab cd").toList ∧
      (∀ j, 1 ≤ j → j < (splitSp ("ab cd").toList).length →
        (((joinSp ((splitSp ("ab cd").toList).take k)).length + 1 : ℤ) -
          ((joinSp ((splitSp ("ab cd").toList).drop k)).length : ℤ)).natAbs ≤
        (((joinSp ((splitSp ("ab cd").toList).take j)).length + 1 : ℤ) -
          ((joinSp ((splitSp ("ab cd").toList).drop j)).length : ℤ)).natAbs)) :=
  ⟨by decide, wrapLabel_two_line_split ("ab cd").toList 3 (by decide)⟩

/-! ### Claim C4: icon placement clamping -/

/-- The icon-position computation of `pointLabelImagesPlugin.afterDraw`
(useChart.js lines 294-303): given the adjusted anchor `(adjX, adjY)`,
the recomputed label angle `radAdj` (the claim quantifies over every
anchor point and label angle, so both are inputs here), the text block
extents, the icon size, the padding and the canvas dimensions, it
projects the icon outward along the radial direction and clamps the
result to the canvas. -/
noncomputable def iconPosition (adjX adjY radAdj textW textH imageSize padding cw ch : ℝ) :
    ℝ × ℝ :=
  let halfWidth := textW / 2
  let halfHeight := textH / 2
  let offsetText := |Real.cos radAdj| * halfWidth + |Real.sin radAdj| * halfHeight
  let offset := offsetText + imageSize / 2 + padding
  let imageX := adjX + Real.cos radAdj * offset - imageSize / 2
  let imageY := adjY + Real.sin radAdj * offset - imageSize / 2
  (max 0 (min (cw - imageSize) imageX), max 0 (min (ch - imageSize) imageY))

/-- Claim C4, counterexample to the original statement: when the icon is
larger than the canvas the target interval `[0, width - iconSize]` is
empty, so the clamped position cannot lie in it — with a 1-pixel icon on
a 0-sized canvas the clamped x-coordinate is 0, which is not `≤ 0 - 1`. -/
theorem iconPosition_oversized_icon_counterexample :
    ¬ ((iconPosition 0 0 0 0 0 1 0 0 0).1 ≤ 0 - 1) := by
  simp only [iconPosition, Real.cos_zero, Real.sin_zero]
  norm_num

/-- Claim C4 (amended: provided the icon fits the canvas, i.e.
`iconSize ≤ canvasWidth` and `iconSize ≤ canvasHeight`): for every
anchor point, label angle, text bounding box, icon size, padding and
canvas size, the clamped icon position lies within
`[0, canvasWidth - iconSize] × [0, canvasHeight - iconSize]`. -/
theorem iconPosition_within_bounds
    (adjX adjY radAdj textW textH imageSize padding cw ch : ℝ)
    (hw : imageSize ≤ cw) (hh : imageSize ≤ ch) :
    0 ≤ (iconPosition adjX adjY radAdj textW textH imageSize padding cw ch).1 ∧
    (iconPosition adjX adjY radAdj textW textH imageSize padding cw ch).1 ≤ cw - imageSize ∧
    0 ≤ (iconPosition adjX adjY radAdj textW textH imageSize padding cw ch).2 ∧
    (iconPosition adjX adjY radAdj textW textH imageSize padding cw ch).2 ≤ ch - imageSize := by
  refine ⟨le_max_left 0 _, ?_, le_max_left 0 _, ?_⟩
  · exact max_le (by linarith) (min_le_left _ _)
  · exact max_le (by linarith) (min_le_left _ _)

/-- Claim C4, witness: the amended bound at a concrete placement (anchor
`(3, 4)`, angle 1 rad, a 10 × 5 text block, icon size 2, padding 6, on a
100 × 50 canvas). -/
theorem iconPosition_within_bounds_witness :
    0 ≤ (iconPosition 3 4 1 10 5 2 6 100 50).1 ∧
    (iconPosition 3 4 1 10 5 2 6 100 50).1 ≤ 100 - 2 ∧
    0 ≤ (iconPosition 3 4 1 10 5 2 6 100 50).2 ∧
    (iconPosition 3 4 1 10 5 2 6 100 50).2 ≤ 50 - 2 :=
  iconPosition_within_bounds 3 4 1 10 5 2 6 100 50 (by norm_num) (by norm_num)

/-! ### Claim C10: axis permutation of `chartData` -/

/-- The permutation applied by `chartData` (useChart.js lines 441-453)
to both the axis labels (`[labels[0], ...labels.slice(1).reverse()]`)
and each visible dataset's scores (`[data[0], ...data.slice(1)
.reverse()]`); an empty sequence stays empty. -/
def jsPermute {α : Type} : List α → List α
  | [] => []
  | x :: xs => x :: xs.reverse

/-- Claim C10: `chartData` applies the same permutation (head kept,
tail reversed) to the axis labels and to every dataset's score
sequence, so zipping the permuted labels with the permuted scores
produces exactly the permuted original label/score pairs — every score
stays attached to its original axis label.  The permuted label list is
moreover a permutation of the original one. -/
theorem chartData_permutation_alignment {α β : Type} (labels : List α) (data : List β)
    (h : labels.length = data.length) :
    List.zip (jsPermute labels) (jsPermute data) = jsPermute (List.zip labels data) ∧
    (jsPermute labels).Perm labels := by
  constructor
  · cases labels with
    | nil =>
      cases data with
      | nil => rfl
      | cons b bs => simp at h
    | cons a as =>
      cases data with
      | nil => simp at h
      | cons b bs =>
        simp only [jsPermute, List.zip_cons_cons]
        have hlen : as.length = bs.length := by simpa using h
        have hz : List.zip as.reverse bs.reverse = (List.zip as bs).reverse := by
          simp only [List.zip]
          rw [← List.reverse_zipWith hlen]
        rw [hz]
  · cases labels with
    | nil => simp [jsPermute]
    | cons a as =>
      simp only [jsPermute]
      exact List.Perm.cons a as.reverse_perm

/-- Claim C10, witness: the alignment at a concrete three-axis chart
with labels `A`, `B`, `C` and one dataset's scores. -/
theorem chartData_permutation_alignment_witness :
    List.zip (jsPermute ["A", "B", "C"]) (jsPermute [(1 : ℚ), 2, 1/2]) =
      jsPermute (List.zip ["A", "B", "C"] [(1 : ℚ), 2, 1/2]) ∧
    (jsPermute ["A", "B", "C"]).Perm ["A", "B", "C"] :=
  chartData_permutation_alignment ["A", "B", "C"] [(1 : ℚ), 2, 1/2] (by decide)

/-! ### Claim C5: ranking in `baseDatasets` -/

/-- Boolean test that `sub` is an initial segment of `s`. -/
def headSeg : List Char → List Char → Bool
  | [], _ => true
  | _ :: _, [] => false
  | a :: as, b :: bs => a = b && headSeg as bs

/-- Boolean substring containment on character lists. -/
def containsSeg : List Char → List Char → Bool
  | sub, [] => headSeg sub []
  | sub, c :: s => headSeg sub (c :: s) || containsSeg sub s

/-- Model of JavaScript `s.includes(sub)` (case-sensitive substring
test), used by the `name.includes('Max')` / `name.includes('Min')`
filter of `baseDatasets` (useChart.js line 390). -/
def jsIncludes (s sub : String) : Bool := containsSeg sub.toList s.toList

/-- The aggregate of `baseDatasets` (useChart.js line 393):
`values.reduce((acc, val) => acc + (isNaN(val) ? 0 : val), 0)`, with a
`NaN` score modelled as `none`. -/
def aggregate (vals : List (Option ℚ)) : ℚ :=
  vals.foldl (fun acc v => acc + (match v with | none => 0 | some x => x)) 0

/-- One insertion step of a stable descending sort on the summed
entries; `q.2 ≤ p.2` keeps `p` in front exactly when the JavaScript
comparator `(a, b) => b.sum - a.sum` would. -/
def insertDesc (p : String × ℚ) : List (String × ℚ) → List (String × ℚ)
  | [] => [p]
  | q :: qs => if q.2 ≤ p.2 then p :: q :: qs else q :: insertDesc p qs

/-- Model of the stable `Array.prototype.sort` (ECMAScript sorts are
stable) with comparator `(a, b) => b.sum - a.sum` (useChart.js line
395): a stable insertion sort, descending on the summed score. -/
def sortDesc : List (String × ℚ) → List (String × ℚ)
  | [] => []
  | p :: ps => insertDesc p (sortDesc ps)

/-- The filtered and aggregated entries of `baseDatasets` (useChart.js
lines 389-394) in encounter order: rows whose name contains `Max` or
`Min` are dropped, the rest keep their summed score. -/
def aggEntries (sortData : List (String × List (Option ℚ))) : List (String × ℚ) :=
  (sortData.filter (fun p => !(jsIncludes p.1 "Max") && !(jsIncludes p.1 "Min"))).map
    (fun p => (p.1, aggregate p.2))

/-- The ranking of `baseDatasets` (useChart.js lines 389-397). -/
def rankEntities (sortData : List (String × List (Option ℚ))) : List (String × ℚ) :=
  sortDesc (aggEntries sortData)

theorem aggregate_eq_sum (vals : List (Option ℚ)) :
    aggregate vals = (vals.map (fun v => v.getD 0)).sum := by
  have hgen : ∀ (l : List (Option ℚ)) (a : ℚ),
      l.foldl (fun acc v => acc + (match v with | none => 0 | some x => x)) a =
        a + (l.map (fun v => v.getD 0)).sum := by
    intro l
    induction l with
    | nil => intro a; simp
    | cons v vs ih =>
      intro a
      simp only [List.foldl_cons, List.map_cons, List.sum_cons, ih]
      cases v <;> simp [Option.getD] <;> ring
  simpa using hgen vals 0

theorem perm_insertDesc (p : String × ℚ) (l : List (String × ℚ)) :
    (insertDesc p l).Perm (p :: l) := by
  induction l with
  | nil => exact List.Perm.refl _
  | cons q qs ih =>
    simp only [insertDesc]
    split
    · exact List.Perm.refl _
    · exact List.Perm.trans (List.Perm.cons q ih) (List.Perm.swap p q qs)

theorem perm_sortDesc (l : List (String × ℚ)) : (sortDesc l).Perm l := by
  induction l with
  | nil => exact List.Perm.refl _
  | cons p ps ih =>
    exact List.Perm.trans (perm_insertDesc p (sortDesc ps)) (List.Perm.cons p ih)

theorem pairwise_insertDesc (p : String × ℚ) (l : List (String × ℚ))
    (hl : l.Pairwise (fun a b => b.2 ≤ a.2)) :
    (insertDesc p l).Pairwise (fun a b => b.2 ≤ a.2) := by
  induction l with
  | nil => simp [insertDesc]
  | cons q qs ih =>
    simp only [insertDesc]
    rw [List.pairwise_cons] at hl
    split
    · rename_i hle
      rw [List.pairwise_cons]
      refine ⟨?_, by rw [List.pairwise_cons]; exact hl⟩
      intro b hb
      rcases List.mem_cons.mp hb with hbq | hbqs
      · rw [hbq]; exact hle
      · exact le_trans (hl.1 b hbqs) hle
    · rename_i hgt
      rw [List.pairwise_cons]
      refine ⟨?_, ih hl.2⟩
      intro b hb
      have hb2 := (perm_insertDesc p qs).mem_iff.mp hb
      rcases List.mem_cons.mp hb2 with hbp | hbqs
      · rw [hbp]; exact le_of_lt (not_le.mp hgt)
      · exact hl.1 b hbqs

theorem pairwise_sortDesc (l : List (String × ℚ)) :
    (sortDesc l).Pairwise (fun a b => b.2 ≤ a.2) := by
  induction l with
  | nil => simp [sortDesc]
  | cons p ps ih => exact pairwise_insertDesc p (sortDesc ps) ih

theorem sublist_insertDesc (p : String × ℚ) (l : List (String × ℚ)) :
    l.Sublist (insertDesc p l) := by
  induction l with
  | nil => simp [insertDesc]
  | cons q qs ih =>
    simp only [insertDesc]
    split
    · exact List.Sublist.cons p (List.Sublist.refl _)
    · exact List.Sublist.cons₂ q ih

/-- Inserting `x` places it before every already-present entry whose
score does not exceed `x`'s — the heart of stability. -/
theorem insertDesc_pair (x y : String × ℚ) (l : List (String × ℚ))
    (hxy : y.2 ≤ x.2) (hy : y ∈ l) :
    [x, y].Sublist (insertDesc x l) := by
  induction l with
  | nil => simp at hy
  | cons z zs ih =>
    simp only [insertDesc]
    split
    · exact List.Sublist.cons₂ x (List.singleton_sublist.mpr hy)
    · rename_i hgt
      rcases List.mem_cons.mp hy with hyz | hyzs
      · exfalso
        rw [hyz] at hxy
        exact hgt (le_trans hxy (le_refl x.2))
      · exact List.Sublist.cons z (ih hyzs)

/-- Stability of the sort: entries with equal scores keep their
encounter order. -/
theorem sortDesc_stable (x y : String × ℚ) (hxy : x.2 = y.2) :
    ∀ l : List (String × ℚ), [x, y].Sublist l → [x, y].Sublist (sortDesc l) := by
  intro l
  induction l with
  | nil => intro h; simpa using h
  | cons a l' ih =>
    intro h
    simp only [sortDesc]
    cases h with
    | cons _ h' =>
      exact (ih h').trans (sublist_insertDesc a (sortDesc l'))
    | cons₂ _ h' =>
      have hy : y ∈ sortDesc l' :=
        (perm_sortDesc l').mem_iff.mpr (List.singleton_sublist.mp h')
      exact insertDesc_pair x y (sortDesc l') (le_of_eq hxy.symm) hy

/-- Modelled from the spec: cell normalization of the CSV ingestion
module (the `useCsvData.js` composable is not among the provided
sources).  A trimmed, case-insensitive `"NA"` cell normalizes to `0`;
a numeric cell parses to its value; any other cell is `NaN` for the
ranking matrix, modelled as `none`.  Decimal notation `intpart.fracpart`
suffices for the scenario inputs. -/
def parseNatGo : List Char → ℕ → Option ℕ
  | [], acc => some acc
  | c :: cs, acc =>
    if c.isDigit then parseNatGo cs (acc * 10 + (c.toNat - 48)) else none

def parseNatList (l : List Char) : Option ℕ :=
  if l = [] then none else parseNatGo l 0

def parseDec (l : List Char) : Option ℚ :=
  let ip := l.takeWhile (fun c => c != '.')
  match l.dropWhile (fun c => c != '.') with
  | [] => (parseNatList ip).map (fun n => (n : ℚ))
  | _ :: frac =>
    if frac.contains '.' then none
    else
      match parseNatList ip, parseNatList frac with
      | some n, some f => some ((n : ℚ) + (f : ℚ) / ((10 : ℚ) ^ frac.length))
      | _, _ => none

def trimL (l : List Char) : List Char :=
  ((l.dropWhile (fun c => c = ' ')).reverse.dropWhile (fun c => c = ' ')).reverse

def parseCell (s : String) : Option ℚ :=
  let t := trimL s.toList
  if t.map Char.toLower = ['n', 'a'] then some 0 else parseDec t

/-- The concrete scenario table of the claim: header `,A,B,C`, rows
`m1,1,NA,0.5` and `m2,0.2,0.3,0.4`, as it enters the ranking matrix. -/
def scenarioTable : List (String × List (Option ℚ)) :=
  [("m1", [parseCell "1", parseCell "NA", parseCell "0.5"]),
    ("m2", [parseCell "0.2", parseCell "0.3", parseCell "0.4"])]

example : parseCell "NA" = some 0 := by decide
example : parseCell "0.5" = some (1 / 2) := by decide

/-- Claim C5: for every table, the ranking aggregates each entity as
the sum of its scores with `NaN` contributing 0, excludes every entity
whose name contains `Max` or `Min`, and sorts descending by aggregate
with ties kept in encounter order (stable sort); in the concrete
scenario (`,A,B,C` with `m1,1,NA,0.5` and `m2,0.2,0.3,0.4`) the
aggregates are `m1 ↦ 3/2` and `m2 ↦ 9/10` and the rank order is
`[m1, m2]`. -/
theorem rankEntities_spec :
    (∀ d : List (String × List (Option ℚ)),
      (∀ e ∈ rankEntities d, jsIncludes e.1 "Max" = false ∧ jsIncludes e.1 "Min" = false) ∧
      (∀ e ∈ rankEntities d, ∃ scores, (e.1, scores) ∈ d ∧
        e.2 = (scores.map (fun v => v.getD 0)).sum) ∧
      (rankEntities d).Perm (aggEntries d) ∧
      (rankEntities d).Pairwise (fun a b => b.2 ≤ a.2) ∧
      (∀ x y : String × ℚ, x.2 = y.2 → [x, y].Sublist (aggEntries d) →
        [x, y].Sublist (rankEntities d)) ∧
      (∀ p ∈ d, (jsIncludes p.1 "Max" = false ∧ jsIncludes p.1 "Min" = false) →
        (p.1, aggregate p.2) ∈ rankEntities d)) ∧
    rankEntities scenarioTable = [("m1", 3 / 2), ("m2", 9 / 10)] ∧
    (rankEntities scenarioTable).map Prod.fst = ["m1", "m2"] := by
  refine ⟨?_, by decide, by decide⟩
  intro d
  have hperm : (rankEntities d).Perm (aggEntries d) := perm_sortDesc (aggEntries d)
  have hmem_agg : ∀ e ∈ rankEntities d, e ∈ aggEntries d := fun e he =>
    hperm.mem_iff.mp he
  refine ⟨?_, ?_, hperm, pairwise_sortDesc (aggEntries d), ?_, ?_⟩
  · intro e he
    obtain ⟨p, hp, hpe⟩ := List.mem_map.mp (hmem_agg e he)
    have hpred := List.of_mem_filter hp
    rw [← hpe]
    simp only [Bool.and_eq_true, Bool.not_eq_true'] at hpred
    exact hpred
  · intro e he
    obtain ⟨p, hp, hpe⟩ := List.mem_map.mp (hmem_agg e he)
    refine ⟨p.2, ?_, ?_⟩
    · have hpd := List.mem_of_mem_filter hp
      rw [← hpe]
      exact hpd
    · rw [← hpe]
      exact aggregate_eq_sum p.2
  · intro x y hxy hsub
    exact sortDesc_stable x y hxy (aggEntries d) hsub
  · intro p hp hexc
    have hfil : p ∈ d.filter (fun p => !(jsIncludes p.1 "Max") && !(jsIncludes p.1 "Min")) := by
      rw [List.mem_filter]
      exact ⟨hp, by simp [hexc.1, hexc.2]⟩
    exact hperm.mem_iff.mpr (List.mem_map.mpr ⟨p, hfil, rfl⟩)

/-- Claim C5, witness: the general theorem applied at the scenario
table — the top entry `(m1, 3/2)` of its ranking contains neither
reserved token and its aggregate is the `NaN`-as-0 sum of its row. -/
theorem rankEntities_spec_witness :
    (jsIncludes ("m1") "Max" = false ∧ jsIncludes ("m1") "Min" = false) ∧
    (∃ scores, (("m1" : String), scores) ∈ scenarioTable ∧
      (3 / 2 : ℚ) = (scores.map (fun v => v.getD 0)).sum) :=
  ⟨(rankEntities_spec.1 scenarioTable).1 ("m1", 3 / 2) (by decide),
   (rankEntities_spec.1 scenarioTable).2.1 ("m1", 3 / 2) (by decide)⟩

/-! ### Claim C6: selection resolution -/

/-- The compound persistence key (useChart.js lines 353-356): `null`
when either the kit or the table name is empty (falsy). -/
def storageKey (kit csv : String) : Option String :=
  if kit = "" ∨ csv = "" then none
  else some ("selectedModels_" ++ kit ++ "_" ++ csv)

/-- The selection-resolution watcher body (useChart.js lines 415-426):
on a table change exposing dataset labels `labels`, restore the
persisted selection `saved` (`none` models a missing or non-array
stored value), keep only the names present among the new labels, and
fall back to all labels when nothing valid remains.  An empty dataset
list makes the watcher return early, leaving the previous selection
untouched (`none` here). -/
def resolveSelection (saved : Option (List String)) (labels : List String) :
    Option (List String) :=
  if labels.isEmpty then none
  else
    let valid := (saved.getD []).filter (fun m => labels.contains m)
    some (if valid.isEmpty then labels else valid)

/-- Claim C6: resolution intersects the persisted selection with the
new table's entity names; when that intersection is empty it defaults
to all entities; hence the resolved selection is always a subset of the
current table's entity names. -/
theorem resolveSelection_subset (saved : Option (List String)) (labels sel : List String)
    (hres : resolveSelection saved labels = some sel) :
    (∀ x ∈ sel, x ∈ labels) ∧
    ((saved.getD []).filter (fun m => labels.contains m) ≠ [] →
      sel = (saved.getD []).filter (fun m => labels.contains m)) ∧
    ((saved.getD []).filter (fun m => labels.contains m) = [] → sel = labels) := by
  simp only [resolveSelection] at hres
  split at hres
  · simp at hres
  · rw [Option.some_inj] at hres
    refine ⟨?_, ?_, ?_⟩
    · intro x hx
      rw [← hres] at hx
      split at hx
      · exact hx
      · have h2 := List.mem_filter.mp hx
        simpa using h2.2
    · intro hne
      rw [← hres, if_neg (by simpa using hne)]
    · intro he
      rw [← hres, if_pos (by rw [he]; rfl)]

/-- Claim C6, witness: with persisted selection `["m2", "zzz"]` and new
entity names `["m1", "m2"]`, resolution keeps exactly `["m2"]`, a
subset of the names. -/
theorem resolveSelection_subset_witness :
    (∀ x ∈ ["m2"], x ∈ ["m1", "m2"]) ∧
    (((some ["m2", "zzz"] : Option (List String)).getD []).filter
        (fun m => ["m1", "m2"].contains m) ≠ [] →
      ["m2"] = ((some ["m2", "zzz"] : Option (List String)).getD []).filter
        (fun m => ["m1", "m2"].contains m)) ∧
    (((some ["m2", "zzz"] : Option (List String)).getD []).filter
        (fun m => ["m1", "m2"].contains m) = [] → ["m2"] = ["m1", "m2"]) :=
  resolveSelection_subset (some ["m2", "zzz"]) ["m1", "m2"] ["m2"] (by decide)

/-! ### Claims C7 and C8: storage with expiry -/

/-- JSON values, as produced by `JSON.parse`. -/
inductive JVal where
  | null : JVal
  | jbool (b : Bool) : JVal
  | num (q : ℚ) : JVal
  | str (s : String) : JVal
  | arr (items : List JVal) : JVal
  | obj (fields : List (String × JVal)) : JVal

/-- The browser `localStorage`: `none` models an absent key, `some
none` an entry whose raw text is not valid JSON (`JSON.parse` throws),
and `some (some v)` an entry that parses to `v` — for JSON data
`JSON.parse(JSON.stringify(v))` is `v`, so entries are modelled by
their parsed values. -/
def Store := String → Option (Option JVal)

def lookupField (fields : List (String × JVal)) (k : String) : Option JVal :=
  (fields.find? (fun p => p.1 == k)).map Prod.snd

/-- The envelope test of `getStoredWithExpiry` (storage.js line 15):
`item && typeof item === 'object' && 'value' in item && 'expiry' in
item`.  JSON arrays cannot carry `value`/`expiry` members and `null` is
falsy, so exactly the objects with both fields qualify. -/
def isEnvelope : JVal → Bool
  | JVal.obj fields =>
    (fields.any (fun p => p.1 == "value")) && (fields.any (fun p => p.1 == "expiry"))
  | _ => false

def custom_expiry_minutes : ℚ := 10

/-- The default `ttl` of `setStoredWithExpiry` (storage.js line 40):
`custom_expiry_minutes * 60 * 1000` milliseconds. -/
def defaultTTL : ℚ := custom_expiry_minutes * 60 * 1000

/-- `setStoredWithExpiry(key, value, ttl)` (storage.js lines 40-46) at
current time `now`: stores `{ value, expiry: now + ttl }`. -/
def setStoredWithExpiry (st : Store) (now : ℚ) (key : String) (value : JVal) (ttl : ℚ) :
    Store :=
  fun k => if k = key
    then some (some (JVal.obj [("value", value), ("expiry", JVal.num (now + ttl))]))
    else st k

def removeItem (st : Store) (key : String) : Store :=
  fun k => if k = key then none else st k

/-- `getStoredWithExpiry(key)` (storage.js lines 8-32) at current time
`now`; returns the updated store together with the result (`JVal.null`
models the JavaScript `null`).  A missing entry and an unparseable
entry both yield `null` (the parse error is caught); an expired
envelope is evicted; a live envelope yields its `value` field; any
other parsed value is the legacy format — it is re-stored under the
default ttl and returned as-is.  A non-numeric `expiry` field never
compares greater with `now`, so such an envelope is returned as live
(numeric coercion of malformed expiry values is outside the modelled
fragment). -/
def getStoredWithExpiry (st : Store) (now : ℚ) (key : String) : Store × JVal :=
  match st key with
  | none => (st, JVal.null)
  | some none => (st, JVal.null)
  | some (some item) =>
    if isEnvelope item then
      match item with
      | JVal.obj fields =>
        match lookupField fields "expiry" with
        | some (JVal.num e) =>
          if e < now then (removeItem st key, JVal.null)
          else (st, (lookupField fields "value").getD JVal.null)
        | _ => (st, (lookupField fields "value").getD JVal.null)
      | _ => (st, JVal.null)
    else
      (setStoredWithExpiry st now key item defaultTTL, item)

/-- Claim C7: writing `v` under `k` with positive ttl and reading back
before the ttl has elapsed returns `v`; reading after the ttl has
elapsed returns `null` and evicts the entry; the default ttl is 10
minutes (600000 ms). -/
theorem storedWithExpiry_roundtrip (st : Store) (now later ttl : ℚ) (key : String)
    (v : JVal) (httl : 0 < ttl) :
    (later - now < ttl →
      getStoredWithExpiry (setStoredWithExpiry st now key v ttl) later key =
        (setStoredWithExpiry st now key v ttl, v)) ∧
    (ttl < later - now →
      getStoredWithExpiry (setStoredWithExpiry st now key v ttl) later key =
        (removeItem (setStoredWithExpiry st now key v ttl) key, JVal.null) ∧
      (getStoredWithExpiry (setStoredWithExpiry st now key v ttl) later key).1 key = none) ∧
    defaultTTL = 10 * 60 * 1000 := by
  have hkey : setStoredWithExpiry st now key v ttl key =
      some (some (JVal.obj [("value", v), ("expiry", JVal.num (now + ttl))])) := by
    simp [setStoredWithExpiry]
  have henv : isEnvelope (JVal.obj [("value", v), ("expiry", JVal.num (now + ttl))]) = true := by
    simp [isEnvelope]
  have hexp : lookupField [("value", v), ("expiry", JVal.num (now + ttl))] "expiry" =
      some (JVal.num (now + ttl)) := by
    simp [lookupField, List.find?]
  have hval : lookupField [("value", v), ("expiry", JVal.num (now + ttl))] "value" =
      some v := by
    simp [lookupField, List.find?]
  refine ⟨?_, ?_, by norm_num [defaultTTL, custom_expiry_minutes]⟩
  · intro hb
    simp only [getStoredWithExpiry, hkey, henv, if_true, hexp, hval]
    rw [if_neg (by linarith : ¬ (now + ttl < later))]
    simp
  · intro ha
    have hlt : now + ttl < later := by linarith
    constructor
    · simp only [getStoredWithExpiry, hkey, henv, if_true, hexp]
      rw [if_pos hlt]
    · simp only [getStoredWithExpiry, hkey, henv, if_true, hexp]
      rw [if_pos hlt]
      simp [removeItem]

/-- Claim C7, witness: a write at time 0 with ttl 5 read back at time 3
returns the stored value. -/
theorem storedWithExpiry_roundtrip_witness :
    getStoredWithExpiry (setStoredWithExpiry (fun _ => none) 0 "k" (JVal.num 1) 5) 3 "k" =
      (setStoredWithExpiry (fun _ => none) 0 "k" (JVal.num 1) 5, JVal.num 1) :=
  (storedWithExpiry_roundtrip (fun _ => none) 0 3 5 "k" (JVal.num 1) (by norm_num)).1
    (by norm_num)

/-- Claim C8: an entry that parses but lacks the `{value, expiry}`
envelope is returned as-is and transparently rewritten in the
expiry-tagged format; an entry that does not parse as JSON yields
`null` without an error and leaves the store unchanged. -/
theorem getStored_legacy_and_corrupt (st : Store) (now : ℚ) (key : String) :
    (∀ item : JVal, st key = some (some item) → isEnvelope item = false →
      getStoredWithExpiry st now key =
        (setStoredWithExpiry st now key item defaultTTL, item)) ∧
    (st key = some none → getStoredWithExpiry st now key = (st, JVal.null)) := by
  constructor
  · intro item hk henv
    simp only [getStoredWithExpiry, hk]
    rw [if_neg (by simp [henv])]
  · intro hk
    simp only [getStoredWithExpiry, hk]

/-- Claim C8, witness: a legacy entry holding the JSON array `[]` is
returned as-is and migrated; a corrupt entry yields `null` with the
store unchanged. -/
theorem getStored_legacy_and_corrupt_witness :
    getStoredWithExpiry (fun k => if k = "k" then some (some (JVal.arr [])) else none) 7 "k" =
      (setStoredWithExpiry (fun k => if k = "k" then some (some (JVal.arr [])) else none)
        7 "k" (JVal.arr []) defaultTTL, JVal.arr []) ∧
    getStoredWithExpiry (fun k => if k = "c" then some none else none) 7 "c" =
      ((fun k => if k = "c" then some none else none), JVal.null) :=
  ⟨(getStored_legacy_and_corrupt
      (fun k => if k = "k" then some (some (JVal.arr [])) else none) 7 "k").1
      (JVal.arr []) (by simp) (by rfl),
   (getStored_legacy_and_corrupt
      (fun k => if k = "c" then some none else none) 7 "c").2 (by simp)⟩

/-! ### Claim C9: color assignment -/

/-- Hexadecimal digit value, as `parseInt(·, 16)` sees it (callers only
pass well-formed `#RRGGBB` literals). -/
def hexVal (c : Char) : ℕ :=
  if '0' ≤ c ∧ c ≤ '9' then c.toNat - 48
  else if 'a' ≤ c ∧ c ≤ 'f' then c.toNat - 87
  else if 'A' ≤ c ∧ c ≤ 'F' then c.toNat - 55
  else 0

/-- An `hsl(h, s%, l%)` triple; the source renders it as a string, with
the three rounded integers as the only varying content. -/
structure HSL where
  h : ℤ
  s : ℤ
  l : ℤ
deriving DecidableEq

/-- JavaScript `Math.round`: round half toward positive infinity. -/
def jsRound (q : ℚ) : ℤ := ⌊q + 1 / 2⌋

def byteAt (cs : List Char) (i : ℕ) : ℕ :=
  16 * hexVal (cs.getD i '0') + hexVal (cs.getD (i + 1) '0')

/-- `hexToHsl(hex)` from chartConfig.js lines 7-34: strip `#`, read the
three colour bytes, and convert to rounded hue/saturation/lightness.
The `switch (max)` of the source tests `case r` first, then `case g`,
then `case b`, which the nested conditional mirrors. -/
def hexToHsl (hex : String) : HSL :=
  let cs := hex.toList.filter (fun c => c != '#')
  let r : ℚ := (byteAt cs 0 : ℚ) / 255
  let g : ℚ := (byteAt cs 2 : ℚ) / 255
  let b : ℚ := (byteAt cs 4 : ℚ) / 255
  let mx := max r (max g b)
  let mn := min r (min g b)
  let l := (mx + mn) / 2
  if mx = mn then ⟨0, 0, jsRound (l * 100)⟩
  else
    let d := mx - mn
    let s := if l > 1 / 2 then d / (2 - mx - mn) else d / (mx + mn)
    let hh :=
      if mx = r then (g - b) / d + (if g < b then 6 else 0)
      else if mx = g then (b - r) / d + 2
      else (r - g) / d + 4
    ⟨jsRound (hh / 6 * 360), jsRound (s * 100), jsRound (l * 100)⟩

example : hexToHsl "#969696" = ⟨0, 0, 59⟩ := by decide

/-- `modelColorMap` from chartConfig.js lines 39-72. -/
def modelColorMap : List (String × HSL) :=
  [("m6Anet", hexToHsl "#2e3792"), ("m6Anet-retrain", hexToHsl "#2e3792"),
    ("EpiNano", hexToHsl "#8e5aa2"), ("EpiNano-retrain", hexToHsl "#8e5aa2"),
    ("SingleMod", hexToHsl "#f6c365"), ("SingleMod-retrain", hexToHsl "#f6c365"),
    ("NanoSPA", hexToHsl "#bc1932"), ("NanoSPA-retrain", hexToHsl "#bc1932"),
    ("TandemMod", hexToHsl "#9DCB62"), ("TandemMod-retrain", hexToHsl "#9DCB62"),
    ("Dinopore", hexToHsl "#F4B5CA"), ("Dinopore-retrain", hexToHsl "#F4B5CA"),
    ("Nanom6A", hexToHsl "#098889"), ("ELIGOS", hexToHsl "#cca814"),
    ("ELIGOS_diff", hexToHsl "#c5781a"), ("MINES", hexToHsl "#7b5223"),
    ("Epinano_delta", hexToHsl "#c896c8"), ("CHEUI", hexToHsl "#6ab93c"),
    ("Tombo", hexToHsl "#57217b"), ("Tombo_com", hexToHsl "#b82373"),
    ("DiffErr", hexToHsl "#cfe298"), ("DRUMMER", hexToHsl "#d25a9c"),
    ("xPore", hexToHsl "#5d96d0"), ("Nanocompore", hexToHsl "#969696"),
    ("DENA", hexToHsl "#a8d6b3"), ("m6Aiso", hexToHsl "#f1881a"),
    ("pum6A", hexToHsl "#129abf"), ("NanoMUD", hexToHsl "#78862f"),
    ("NanoRMS", hexToHsl "#4b4b4b"), ("PsiNanopore", hexToHsl "#2a65b0"),
    ("Xron", hexToHsl "#6affb9"), ("Dorado", hexToHsl "#ef1fff")]

/-- Preset lookup, `modelColorMap[model]`. -/
def lookupColor (name : String) : Option HSL :=
  (modelColorMap.find? (fun p => p.1 == name)).map Prod.snd

/-- `generateColors(n, modelNames)` from chartConfig.js lines 81-93.
An out-of-range index reads `undefined` in JavaScript, which is mapped
by no preset; the model uses the default name `""`, which no preset
maps either. -/
def generateColors (n : ℕ) (modelNames : List String) : List HSL :=
  (List.range n).map (fun i =>
    match lookupColor (modelNames.getD i "") with
    | some c => c
    | none => ⟨jsRound ((360 : ℚ) / (n : ℚ) * (i : ℚ)), 70, 60⟩)

/-- Claim C9: for an ordered sequence of `n` entity names the color
assignment returns a same-length sequence; a name in the preset table
gets its preset color, and an unmapped name at index `i` gets the
deterministic fallback `hsl(round(360·i/n), 70%, 60%)`. -/
theorem generateColors_spec (names : List String) :
    (generateColors names.length names).length = names.length ∧
    ∀ i, i < names.length →
      (generateColors names.length names).getD i ⟨0, 0, 0⟩ =
        match lookupColor (names.getD i "") with
        | some c => c
        | none => ⟨jsRound ((360 : ℚ) / (names.length : ℚ) * (i : ℚ)), 70, 60⟩ := by
  constructor
  · simp [generateColors]
  · intro i hi
    simp only [generateColors, List.getD_eq_getElem?_getD, List.getElem?_map,
      List.getElem?_range, hi]
    simp [hi]

/-- Claim C9, witness: with names `["m6Anet", "zzz"]` the second name
is unmapped and receives the fallback color at hue
`round(360 · 1 / 2) = 180`. -/
theorem generateColors_spec_witness :
    (generateColors (["m6Anet", "zzz"] : List String).length ["m6Anet", "zzz"]).getD 1
        ⟨0, 0, 0⟩ =
      match lookupColor ((["m6Anet", "zzz"] : List String).getD 1 "") with
      | some c => c
      | none => ⟨jsRound ((360 : ℚ) / ((["m6Anet", "zzz"] : List String).length : ℚ) *
          ((1 : ℕ) : ℚ)), 70, 60⟩ :=
  (generateColors_spec ["m6Anet", "zzz"]).2 1 (by decide)
